import Mathlib

set_option linter.unusedVariables false

/-!
Shallow embedding of `KMeansLoss`
(`pydbm/clustering/computableclusteringloss/k_means_loss.pyx`).

Floating-point values are modelled as `Option ℚ`: `none` stands for IEEE
NaN, `some x` for a finite value.  This captures exactly the NaN behaviour
the code relies on: any arithmetic touching NaN yields NaN (in particular
`0 * NaN = NaN`), `np.nanmean` averages the non-NaN entries of a slice and
returns NaN when the slice holds no finite entry, and `np.argmax` returns
the index of the first NaN when one is present (numpy's scan updates on
`not (x <= max)` and stops at the NaN).

numpy arrays are nested lists (`Mat` for 2-D, `Tensor3` for 3-D); shape
reads (`arr.shape[i]`) become lengths of the leading rows, which agrees
with numpy on the rectangular arrays numpy actually produces.  Operations
that can raise in numpy (out-of-bounds fancy assignment, incompatible
broadcast) return `Except String`.
-/

namespace KMeansLossModel

/-- Model of an IEEE double: `none` is NaN, `some x` a finite value. -/
abbrev V := Option ℚ

/-- Model of a 2-D float array. -/
abbrev Mat := List (List V)

/-- Model of a 3-D float array. -/
abbrev Tensor3 := List (List (List V))

/-- IEEE `<=` as used by numpy's argmax scan: any comparison with NaN is false. -/
def vle : V → V → Bool
  | some a, some b => a ≤ b
  | _, _ => false

/-- IEEE multiplication: NaN times anything is NaN (including `0 * NaN`). -/
def vmul : V → V → V
  | some a, some b => some (a * b)
  | _, _ => none

/-- Model of `np.square` on one entry. -/
def vsquare (v : V) : V := vmul v v

/-- Model of `np.nanmean` over one 1-D slice: mean of the non-NaN entries,
NaN when every entry is NaN (numpy emits a warning and returns NaN). -/
def nanmean1 (xs : List V) : V :=
  let fs := xs.filterMap id
  if fs.length = 0 then none else some (fs.sum / (fs.length : ℚ))

/-- Loop of numpy's argmax kernel: starting from running maximum `mp` (never
NaN on entry), position `i`, and best index `best`, update when
`not (x <= mp)` and stop as soon as the new maximum is NaN. -/
def argmaxLoop : List V → V → ℕ → ℕ → ℕ
  | [], _, _, best => best
  | x :: xs, mp, i, best =>
    if vle x mp then argmaxLoop xs mp (i + 1) best
    else if x = none then i
    else argmaxLoop xs x (i + 1) i

/-- Model of `np.argmax` on one row (`axis=1` applies this to each row):
first index of the maximum; the first NaN, if any, wins the scan. -/
def np_argmax (row : List V) : ℕ :=
  match row with
  | [] => 0
  | x :: xs => if x = none then 0 else argmaxLoop xs x 1 0

/-- Model of `arr.shape[2]` for a 3-D array (rectangular in numpy). -/
def shape3_2 (t : Tensor3) : ℕ := ((t.headD []).headD []).length

/-- Entry read with numpy-style in-bounds indexing. -/
def get3 (t : Tensor3) (i j k : ℕ) : V := ((t.getD i []).getD j []).getD k none

/-- Broadcast index: an axis of extent 1 is read at position 0. -/
def bidx (dim i : ℕ) : ℕ := if dim = 1 then 0 else i

/-- Two axis extents are broadcast-compatible when equal or one is 1. -/
def bcompat (a b : ℕ) : Bool := a == b || a == 1 || b == 1

/-- Model of numpy's broadcasting elementwise product of two 3-D arrays;
incompatible shapes raise, as `A * B` does in numpy. -/
def broadcastMul (A B : Tensor3) : Except String Tensor3 :=
  let a1 := A.length
  let a2 := (A.headD []).length
  let a3 := ((A.headD []).headD []).length
  let b1 := B.length
  let b2 := (B.headD []).length
  let b3 := ((B.headD []).headD []).length
  if bcompat a1 b1 && bcompat a2 b2 && bcompat a3 b3 then
    .ok ((List.range (max a1 b1)).map fun i =>
      (List.range (max a2 b2)).map fun j =>
        (List.range (max a3 b3)).map fun k =>
          vmul (get3 A (bidx a1 i) (bidx a2 j) (bidx a3 k))
               (get3 B (bidx b1 i) (bidx b2 j) (bidx b3 k)))
  else .error "operands could not be broadcast together"

/-- Model of `np.nanmean(t, axis=1)` on an N x K x D array: for each sample
and feature index, the NaN-tolerant mean over the cluster axis. -/
def nanmeanAxis1 (t : Tensor3) : Mat :=
  let D := ((t.headD []).headD []).length
  t.map fun mat =>
    (List.range D).map fun d => nanmean1 (mat.map fun row => row.getD d none)

/-- Model of `KMeansLoss.__assign_label`: if the trailing axis has extent
above 1, collapse it with `np.nanmean(axis=2)`; the reshape to
`(shape[0], shape[1])` then drops a trailing extent-1 axis; finally
`argmax(axis=1)` per sample. -/
def assign_label (q_arr : Tensor3) : List ℕ :=
  let q2 : Mat :=
    if shape3_2 q_arr > 1 then q_arr.map fun mat => mat.map nanmean1
    else q_arr.map fun mat => mat.map fun row => row.headD none
  q2.map np_argmax

/-- One entry of the one-hot mask row for label `l`: 1 at the label's
cluster, 0 elsewhere (the `t_hot_arr[i, label_arr[i]] = 1` assignment). -/
def hotV (l k : ℕ) : V := if k = l then some 1 else some 0

/-- Default of the `weight` constructor argument (`weight=0.125`). -/
def default_weight : ℚ := 0.125

/-- Model of the one-hot mask construction (`np.zeros((N, K))` followed by
`t_hot_arr[i, label_arr[i]] = 1` for each sample). -/
def t_hot_mask (label_arr : List ℕ) (K : ℕ) : Mat :=
  label_arr.map fun l => (List.range K).map (hotV l)

/-- Model of `np.expand_dims(m, axis=2)` on a 2-D array. -/
def expand_dims2 (m : Mat) : Tensor3 :=
  m.map fun row => row.map fun v => [v]

/-- Model of `KMeansLoss.compute_clustering_loss`.  The weight `w` is the
value stored by `__init__`.  `observed_arr`, `reconstructed_arr`,
`feature_arr` and `p_arr` are accepted per the interface but never read.
Steps: assign labels from `q_arr`; build the one-hot mask
(`np.zeros((N, delta_arr.shape[1]))` plus the assignment loop, which
raises when a label is out of the mask's bounds); `expand_dims(axis=2)`;
multiply by `np.square(delta_arr)` under broadcasting; `nanmean(axis=1)`;
scale by the weight; return alongside `None, None`. -/
def compute_clustering_loss (w : ℚ)
    (observed_arr reconstructed_arr feature_arr : Mat)
    (delta_arr : Tensor3) (q_arr : Tensor3) (p_arr : Mat) :
    Except String (Mat × Option Mat × Option Mat) :=
  let label_arr := assign_label q_arr
  let K := (delta_arr.headD []).length
  if label_arr.all fun l => decide (l < K) then
    let t_hot_arr : Mat := t_hot_mask label_arr K
    let t_hot3 : Tensor3 := expand_dims2 t_hot_arr
    match broadcastMul t_hot3
        (delta_arr.map fun mat => mat.map fun row => row.map vsquare) with
    | .error e => .error e
    | .ok delta_kmeans_arr =>
      let z := nanmeanAxis1 delta_kmeans_arr
      .ok (z.map fun row => row.map fun v => vmul v (some w), none, none)
  else .error "index 2 is out of bounds"

/-- Rectangular N x K x D array generated by an index function; every
rectangular numpy array is of this form. -/
def mkT3 (N K D : ℕ) (f : ℕ → ℕ → ℕ → V) : Tensor3 :=
  (List.range N).map fun n =>
    (List.range K).map fun k => (List.range D).map fun d => f n k d

/-- NaN-tolerant cluster-axis mean of the masked squared distances, as a
function of the shape, the delta entries and the per-sample labels; the
derived form the encoder delta is proved to take. -/
def maskedMean (N K D : ℕ) (fd : ℕ → ℕ → ℕ → V) (labels : ℕ → ℕ) : Mat :=
  (List.range N).map fun n =>
    (List.range D).map fun d =>
      nanmean1 ((List.range K).map fun k =>
        vmul (hotV (labels n) k) (vsquare (fd n k d)))

/-- Scalar multiple of a matrix on the left (`c * m` entrywise). -/
def smulMat (c : ℚ) (m : Mat) : Mat :=
  m.map fun r => r.map fun v => vmul (some c) v

/-- Scalar multiple of a matrix on the right (`m * w` entrywise, the
`delta_kmeans_z_arr * self.__weight` step). -/
def wscale (w : ℚ) (m : Mat) : Mat :=
  m.map fun r => r.map fun v => vmul v (some w)

/-- Entry read of a 2-D result. -/
def entry2 (m : Mat) (n d : ℕ) : V := (m.getD n []).getD d none

/-- Collapse of an all-finite N x K x M target distribution to N x K: plain
mean over the trailing axis when its extent exceeds 1, otherwise the single
trailing entry (the reshape); derived form used in label-assignment facts. -/
def qCollapse (M : ℕ) (fq : ℕ → ℕ → ℕ → ℚ) (n k : ℕ) : ℚ :=
  if 1 < M then ((List.range M).map (fq n k)).sum / (M : ℚ) else fq n k 0

/-- Sum of all finite entries of a 3-D array (used to state the mask-sum
invariant). -/
def maskTotal (t : Tensor3) : ℚ :=
  (t.map fun row => (row.map fun cell => (cell.filterMap id).sum).sum).sum

/-! ### Generic list helpers -/

theorem getD_map_range {α : Type} (f : ℕ → α) {D d : ℕ} (hd : d < D) (x : α) :
    (((List.range D).map f).getD d x) = f d := by
  simp [List.getD_eq_getElem?_getD, List.getElem?_map, List.getElem?_range, hd]

theorem headD_map_range {α : Type} (f : ℕ → α) {N : ℕ} (hN : 0 < N) (x : α) :
    (((List.range N).map f).headD x) = f 0 := by
  obtain ⟨N₀, rfl⟩ : ∃ N₀, N = N₀ + 1 := ⟨N - 1, by omega⟩
  simp [List.range_succ_eq_map]

theorem count_range_eq (a K : ℕ) :
    (List.range K).count a = if a < K then 1 else 0 := by
  induction K with
  | zero => simp
  | succ K ih =>
    rw [List.range_succ]
    rcases Nat.lt_trichotomy a K with h | h | h
    · simp [List.count_append, ih, h, Nat.lt_succ_of_lt h, Nat.ne_of_lt h]
    · subst h
      simp [List.count_append, ih]
    · have h1 : ¬ a < K := by omega
      have h2 : ¬ a < K + 1 := by omega
      simp [List.count_append, ih, h1, h2, Nat.ne_of_gt h]

theorem length_filterMap_eq_countP {α β : Type} (F : α → Option β) (l : List α) :
    (l.filterMap F).length = l.countP fun a => (F a).isSome := by
  induction l with
  | nil => rfl
  | cons x xs ih =>
    rcases h : F x with _ | b <;>
      simp [List.filterMap_cons, List.countP_cons, h, ih]

theorem sum_filterMap_hot (a : ℕ) (c : ℚ) (F : ℕ → Option ℚ) (l : List ℕ)
    (hF : ∀ k ∈ l, (k = a → F k = some c) ∧ (k ≠ a → F k = none ∨ F k = some 0)) :
    (l.filterMap F).sum = c * l.count a := by
  induction l with
  | nil => simp
  | cons x xs ih =>
    have hx := hF x (List.mem_cons_self x xs)
    have ihs := ih fun k hk => hF k (List.mem_cons_of_mem x hk)
    by_cases hxa : x = a
    · subst hxa
      rw [List.filterMap_cons, hx.1 rfl]
      simp [List.count_cons, ihs]
      ring
    · rcases hx.2 hxa with h0 | h0 <;>
        simp [List.filterMap_cons, h0, List.count_cons, hxa, ihs]

theorem sum_all_ones (l : List ℚ) (h : ∀ x ∈ l, x = 1) : l.sum = (l.length : ℚ) := by
  induction l with
  | nil => simp
  | cons x xs ih =>
    have hx := h x (List.mem_cons_self x xs)
    have ihs := ih fun y hy => h y (List.mem_cons_of_mem x hy)
    simp [hx, ihs]
    ring

/-! ### Arithmetic facts about the IEEE value model -/

theorem vmul_some_some (a b : ℚ) : vmul (some a) (some b) = some (a * b) := rfl

theorem vmul_none_right (v : V) : vmul v none = none := by cases v <;> rfl

theorem vmul_comm (v w : V) : vmul v w = vmul w v := by
  cases v <;> cases w <;> simp [vmul, mul_comm]

theorem bidx_of_lt {D k : ℕ} (hk : k < D) : bidx D k = k := by
  unfold bidx
  split <;> omega

theorem nanmean1_isSome_of_mem {xs : List V} {x : ℚ} (h : some x ∈ xs) :
    ∃ y, nanmean1 xs = some y := by
  have hx : x ∈ xs.filterMap id := List.mem_filterMap.2 ⟨some x, h, rfl⟩
  have hlen : (xs.filterMap id).length ≠ 0 := by
    have := List.ne_nil_of_mem hx
    simpa [List.length_eq_zero] using this
  exact ⟨(xs.filterMap id).sum / ((xs.filterMap id).length : ℚ),
    by simp [nanmean1, hlen]⟩

theorem nanmean1_of_all_none {xs : List V} (h : ∀ v ∈ xs, v = none) :
    nanmean1 xs = none := by
  have : xs.filterMap id = [] := by
    rw [List.filterMap_eq_nil_iff]
    intro v hv
    rw [h v hv]
    rfl
  simp [nanmean1, this]

theorem nanmean1_eq_of (xs : List V) (hlen : (xs.filterMap id).length ≠ 0) :
    nanmean1 xs = some ((xs.filterMap id).sum / ((xs.filterMap id).length : ℚ)) := by
  simp [nanmean1, hlen]

theorem nanmean1_map_some (l : List ℚ) (h : l ≠ []) :
    nanmean1 (l.map some) = some (l.sum / (l.length : ℚ)) := by
  have hfm : (l.map some).filterMap id = l := by
    rw [List.filterMap_map]
    simp [List.filterMap_some]
  have hlen : l.length ≠ 0 := by simp [List.length_eq_zero, h]
  simp [nanmean1, hfm, hlen]

/-! ### Properties of the argmax scan -/

theorem argmaxLoop_some_spec (l : List ℚ) :
    ∀ (m : ℚ) (i best : ℕ),
      (argmaxLoop (l.map some) (some m) i best = best ∧
        ∀ p, p < l.length → l.getD p 0 ≤ m) ∨
      (∃ p, p < l.length ∧ argmaxLoop (l.map some) (some m) i best = i + p ∧
        m < l.getD p 0 ∧ (∀ t, t < l.length → l.getD t 0 ≤ l.getD p 0) ∧
        (∀ t, t < p → l.getD t 0 < l.getD p 0)) := by
  induction l with
  | nil => intro m i best; left; constructor <;> simp [argmaxLoop]
  | cons x xs ih =>
    intro m i best
    by_cases hxm : x ≤ m
    · have hstep : argmaxLoop ((x :: xs).map some) (some m) i best =
          argmaxLoop (xs.map some) (some m) (i + 1) best := by
        simp [argmaxLoop, vle, hxm]
      rcases ih m (i + 1) best with ⟨he, hall⟩ | ⟨p, hp, he, hm, hmax, hstr⟩
      · left
        refine ⟨hstep.trans he, ?_⟩
        intro p hp
        cases p with
        | zero => simpa using hxm
        | succ t => simpa using hall t (by simpa using hp)
      · right
        refine ⟨p + 1, by simpa using hp, ?_, ?_, ?_, ?_⟩
        · rw [hstep, he]; omega
        · simpa using hm
        · intro t ht
          cases t with
          | zero => simpa using le_trans hxm (le_of_lt hm)
          | succ s => simpa using hmax s (by simpa using ht)
        · intro t ht
          cases t with
          | zero => simpa using lt_of_le_of_lt hxm hm
          | succ s => simpa using hstr s (by omega)
    · have hstep : argmaxLoop ((x :: xs).map some) (some m) i best =
          argmaxLoop (xs.map some) (some x) (i + 1) i := by
        simp [argmaxLoop, vle, hxm]
      have hmx : m < x := lt_of_not_le hxm
      rcases ih x (i + 1) i with ⟨he, hall⟩ | ⟨p, hp, he, hm, hmax, hstr⟩
      · right
        refine ⟨0, by simp, by simpa using hstep.trans he, by simpa using hmx, ?_, ?_⟩
        · intro t ht
          cases t with
          | zero => simp
          | succ s => simpa using hall s (by simpa using ht)
        · intro t ht; omega
      · right
        refine ⟨p + 1, by simpa using hp, ?_, ?_, ?_, ?_⟩
        · rw [hstep, he]; omega
        · simpa using lt_trans hmx hm
        · intro t ht
          cases t with
          | zero => simpa using le_of_lt hm
          | succ s => simpa using hmax s (by simpa using ht)
        · intro t ht
          cases t with
          | zero => simpa using hm
          | succ s => simpa using hstr s (by omega)

theorem np_argmax_some_spec (g : ℕ → ℚ) (K : ℕ) (hK : 0 < K) :
    np_argmax ((List.range K).map fun k => some (g k)) < K ∧
    (∀ k, k < K → g k ≤ g (np_argmax ((List.range K).map fun k => some (g k)))) ∧
    (∀ k, k < np_argmax ((List.range K).map fun k => some (g k)) →
      g k < g (np_argmax ((List.range K).map fun k => some (g k)))) := by
  obtain ⟨K₀, rfl⟩ : ∃ K₀, K = K₀ + 1 := ⟨K - 1, by omega⟩
  have hrow : (List.range (K₀ + 1)).map (fun k => some (g k)) =
      some (g 0) :: ((List.range K₀).map fun s => g (s + 1)).map some := by
    rw [List.range_succ_eq_map]
    simp [List.map_map, Function.comp]
  have hl : ∀ p, p < K₀ → ((List.range K₀).map fun s => g (s + 1)).getD p 0 = g (p + 1) := by
    intro p hp
    exact getD_map_range (fun s => g (s + 1)) hp 0
  have hres : np_argmax ((List.range (K₀ + 1)).map fun k => some (g k)) =
      argmaxLoop (((List.range K₀).map fun s => g (s + 1)).map some) (some (g 0)) 1 0 := by
    rw [hrow]
    simp [np_argmax]
  rcases argmaxLoop_some_spec ((List.range K₀).map fun s => g (s + 1)) (g 0) 1 0 with
    ⟨he, hall⟩ | ⟨p, hp, he, hm, hmax, hstr⟩
  · rw [hres, he]
    refine ⟨by omega, ?_, by omega⟩
    intro k hk
    cases k with
    | zero => exact le_refl _
    | succ s =>
      have := hall s (by simpa using hk)
      rwa [hl s (by simpa using hk)] at this
  · have hplen : p < K₀ := by simpa using hp
    have he2 : np_argmax ((List.range (K₀ + 1)).map fun k => some (g k)) = p + 1 := by
      rw [hres, he]; omega
    rw [he2]
    rw [hl p hplen] at hm hmax hstr
    refine ⟨by omega, ?_, ?_⟩
    · intro k hk
      cases k with
      | zero => exact le_of_lt hm
      | succ s =>
        have hs : s < K₀ := by omega
        have := hmax s (by simpa using hs)
        rwa [hl s hs] at this
    · intro k hk
      cases k with
      | zero => exact hm
      | succ s =>
        have hs : s < p := by omega
        have := hstr s hs
        rwa [hl s (by omega)] at this

theorem argmaxLoop_first_none (l : List V) :
    ∀ (m : ℚ) (i best j : ℕ), j < l.length →
      l.getD j (some 0) = none → (∀ t, t < j → l.getD t (some 0) ≠ none) →
      argmaxLoop l (some m) i best = i + j := by
  induction l with
  | nil => intro m i best j hj; simp at hj
  | cons x xs ih =>
    intro m i best j hj hnone hfin
    cases j with
    | zero =>
      have hx : x = none := by simpa using hnone
      subst hx
      simp [argmaxLoop, vle]
    | succ s =>
      have hx : x ≠ none := by simpa using hfin 0 (Nat.succ_pos s)
      rcases x with _ | y
      · exact absurd rfl hx
      have hs : s < xs.length := by simpa using hj
      have hsn : xs.getD s (some 0) = none := by simpa using hnone
      have hsf : ∀ t, t < s → xs.getD t (some 0) ≠ none := by
        intro t ht
        have := hfin (t + 1) (by omega)
        simpa using this
      by_cases hym : y ≤ m
      · have : argmaxLoop (some y :: xs) (some m) i best =
            argmaxLoop xs (some m) (i + 1) best := by simp [argmaxLoop, vle, hym]
        rw [this, ih m (i + 1) best s hs hsn hsf]
        omega
      · have : argmaxLoop (some y :: xs) (some m) i best =
            argmaxLoop xs (some y) (i + 1) i := by simp [argmaxLoop, vle, hym]
        rw [this, ih y (i + 1) i s hs hsn hsf]
        omega

theorem np_argmax_first_none (row : List V) (j : ℕ) (hj : j < row.length)
    (hnone : row.getD j (some 0) = none)
    (hfin : ∀ t, t < j → row.getD t (some 0) ≠ none) :
    np_argmax row = j := by
  cases row with
  | nil => simp at hj
  | cons x xs =>
    cases j with
    | zero =>
      have hx : x = none := by simpa using hnone
      simp [np_argmax, hx]
    | succ s =>
      have hx : x ≠ none := by simpa using hfin 0 (Nat.succ_pos s)
      have hs : s < xs.length := by simpa using hj
      have hsn : xs.getD s (some 0) = none := by simpa using hnone
      have hsf : ∀ t, t < s → xs.getD t (some 0) ≠ none := by
        intro t ht
        have := hfin (t + 1) (by omega)
        simpa using this
      rcases x with _ | y
      · exact absurd rfl hx
      rw [np_argmax]
      simp only [if_neg (by simp : (some y : V) ≠ none)]
      rw [argmaxLoop_first_none xs y 1 0 s hs hsn hsf]
      omega

/-! ### Shape facts about generated arrays -/

theorem length_mkT3 (N K D : ℕ) (f : ℕ → ℕ → ℕ → V) : (mkT3 N K D f).length = N := by
  simp [mkT3]

theorem headD_mkT3 {N : ℕ} (K D : ℕ) (f : ℕ → ℕ → ℕ → V) (hN : 0 < N) :
    (mkT3 N K D f).headD [] = (List.range K).map fun k => (List.range D).map (f 0 k) := by
  unfold mkT3
  rw [headD_map_range _ hN]

theorem shape3_2_mkT3 {N K : ℕ} (D : ℕ) (f : ℕ → ℕ → ℕ → V) (hN : 0 < N) (hK : 0 < K) :
    shape3_2 (mkT3 N K D f) = D := by
  unfold shape3_2
  rw [headD_mkT3 K D f hN, headD_map_range _ hK]
  simp

theorem get3_mkT3 {N K D i j k : ℕ} (f : ℕ → ℕ → ℕ → V)
    (hi : i < N) (hj : j < K) (hk : k < D) :
    get3 (mkT3 N K D f) i j k = f i j k := by
  unfold get3 mkT3
  rw [getD_map_range _ hi, getD_map_range _ hj, getD_map_range _ hk]

/-! ### Derived forms of the pipeline steps -/

theorem assign_label_mkT3 (N K M : ℕ) (hN : 0 < N) (hK : 0 < K) (fq : ℕ → ℕ → ℕ → V) :
    assign_label (mkT3 N K M fq) =
      (List.range N).map fun n => np_argmax ((List.range K).map fun k =>
        if 1 < M then nanmean1 ((List.range M).map (fq n k))
        else ((List.range M).map (fq n k)).headD none) := by
  unfold assign_label
  rw [shape3_2_mkT3 M fq hN hK]
  by_cases hM : 1 < M
  · simp only [gt_iff_lt, hM, if_true]
    unfold mkT3
    rw [List.map_map, List.map_map]
    apply List.map_congr_left
    intro n hn
    simp only [Function.comp]
    congr 1
    rw [List.map_map]
    apply List.map_congr_left
    intro k hk
    rfl
  · simp only [gt_iff_lt, hM, if_false]
    unfold mkT3
    rw [List.map_map, List.map_map]
    apply List.map_congr_left
    intro n hn
    simp only [Function.comp]
    congr 1
    rw [List.map_map]
    apply List.map_congr_left
    intro k hk
    rfl

theorem squared_mkT3 (N K D : ℕ) (fd : ℕ → ℕ → ℕ → V) :
    ((mkT3 N K D fd).map fun mat => mat.map fun row => row.map vsquare) =
      mkT3 N K D fun n k d => vsquare (fd n k d) := by
  unfold mkT3
  simp [List.map_map, Function.comp]

theorem t_hot3_mkT3 (N K : ℕ) (labels : ℕ → ℕ) :
    expand_dims2 (t_hot_mask ((List.range N).map labels) K) =
      mkT3 N K 1 fun n k _ => hotV (labels n) k := by
  unfold expand_dims2 t_hot_mask mkT3
  have h1 : List.range 1 = [0] := rfl
  simp [List.map_map, Function.comp, h1]

theorem broadcastMul_mkT3 {N K D : ℕ} (fA fB : ℕ → ℕ → ℕ → V)
    (hN : 0 < N) (hK : 0 < K) (hD : 0 < D) :
    broadcastMul (mkT3 N K 1 fA) (mkT3 N K D fB) =
      .ok (mkT3 N K D fun n k d => vmul (fA n k 0) (fB n k d)) := by
  unfold broadcastMul
  have hA1 : (mkT3 N K 1 fA).length = N := length_mkT3 N K 1 fA
  have hA2 : ((mkT3 N K 1 fA).headD []).length = K := by
    rw [headD_mkT3 K 1 fA hN]; simp
  have hA3 : (((mkT3 N K 1 fA).headD []).headD []).length = 1 := by
    rw [headD_mkT3 K 1 fA hN, headD_map_range _ hK]; simp
  have hB1 : (mkT3 N K D fB).length = N := length_mkT3 N K D fB
  have hB2 : ((mkT3 N K D fB).headD []).length = K := by
    rw [headD_mkT3 K D fB hN]; simp
  have hB3 : (((mkT3 N K D fB).headD []).headD []).length = D := by
    rw [headD_mkT3 K D fB hN, headD_map_range _ hK]; simp
  rw [hA1, hA2, hA3, hB1, hB2, hB3]
  have hcond : (bcompat N N && bcompat K K && bcompat 1 D) = true := by
    simp [bcompat]
  rw [if_pos hcond]
  have hmax1 : max N N = N := by omega
  have hmax2 : max K K = K := by omega
  have hmax3 : max 1 D = D := by omega
  rw [hmax1, hmax2, hmax3]
  congr 1
  show ((List.range N).map fun i => (List.range K).map fun j => (List.range D).map fun k =>
      vmul (get3 (mkT3 N K 1 fA) (bidx N i) (bidx K j) (bidx 1 k))
        (get3 (mkT3 N K D fB) (bidx N i) (bidx K j) (bidx D k))) =
    (List.range N).map fun n => (List.range K).map fun k => (List.range D).map fun d =>
      vmul (fA n k 0) (fB n k d)
  apply List.map_congr_left
  intro i hi
  apply List.map_congr_left
  intro j hj
  apply List.map_congr_left
  intro k hk
  rw [List.mem_range] at hi hj hk
  rw [bidx_of_lt hi, bidx_of_lt hj, bidx_of_lt hk]
  have h01 : bidx 1 k = 0 := by simp [bidx]
  rw [h01, get3_mkT3 fA hi hj (by omega : (0:ℕ) < 1), get3_mkT3 fB hi hj hk]

theorem nanmeanAxis1_mkT3 {N K : ℕ} (D : ℕ) (g : ℕ → ℕ → ℕ → V)
    (hN : 0 < N) (hK : 0 < K) :
    nanmeanAxis1 (mkT3 N K D g) =
      (List.range N).map fun n => (List.range D).map fun d =>
        nanmean1 ((List.range K).map fun k => g n k d) := by
  unfold nanmeanAxis1
  have hsh : (((mkT3 N K D g).headD []).headD []).length = D := by
    rw [headD_mkT3 K D g hN, headD_map_range _ hK]; simp
  rw [hsh]
  unfold mkT3
  rw [List.map_map]
  apply List.map_congr_left
  intro n hn
  apply List.map_congr_left
  intro d hd
  rw [List.mem_range] at hn hd
  congr 1
  rw [List.map_map]
  apply List.map_congr_left
  intro k hk
  rw [List.mem_range] at hk
  simp only [Function.comp]
  exact getD_map_range (g n k) hd none

/-! ### Master description of a successful call -/

theorem compute_ok (w : ℚ) (o r f p : Mat) (N K D : ℕ)
    (hN : 0 < N) (hK : 0 < K) (hD : 0 < D)
    (fd : ℕ → ℕ → ℕ → V) (q : Tensor3) (labels : ℕ → ℕ)
    (hl : assign_label q = (List.range N).map labels)
    (hlk : ∀ n, n < N → labels n < K) :
    compute_clustering_loss w o r f (mkT3 N K D fd) q p =
      .ok (wscale w (maskedMean N K D fd labels), none, none) := by
  unfold compute_clustering_loss
  rw [hl]
  have hKd : ((mkT3 N K D fd).headD []).length = K := by
    rw [headD_mkT3 K D fd hN]; simp
  rw [hKd]
  have hall : (((List.range N).map labels).all fun l => decide (l < K)) = true := by
    rw [List.all_eq_true]
    intro x hx
    rw [List.mem_map] at hx
    obtain ⟨n, hn, rfl⟩ := hx
    rw [List.mem_range] at hn
    exact decide_eq_true (hlk n hn)
  rw [if_pos hall]
  simp only [t_hot3_mkT3 N K labels, squared_mkT3 N K D fd,
    broadcastMul_mkT3 (fun n k _ => hotV (labels n) k) (fun n k d => vsquare (fd n k d)) hN hK hD,
    nanmeanAxis1_mkT3 D _ hN hK]
  rfl

theorem wscale_eq_smulMat (c : ℚ) (m : Mat) : wscale c m = smulMat c m := by
  unfold wscale smulMat
  apply List.map_congr_left
  intro row hrow
  apply List.map_congr_left
  intro v hv
  exact vmul_comm v (some c)

theorem wscale_mul (c w : ℚ) (m : Mat) :
    wscale (c * w) m = smulMat c (wscale w m) := by
  unfold wscale smulMat
  rw [List.map_map]
  apply List.map_congr_left
  intro row hrow
  simp only [Function.comp]
  rw [List.map_map]
  apply List.map_congr_left
  intro v hv
  cases v with
  | none => rfl
  | some x =>
    simp only [Function.comp, vmul]
    congr 1
    ring

theorem filterMap_congr_mem {α β : Type} {F G : α → Option β} {l : List α}
    (h : ∀ a ∈ l, F a = G a) : l.filterMap F = l.filterMap G := by
  induction l with
  | nil => rfl
  | cons x xs ih =>
    rw [List.filterMap_cons, List.filterMap_cons, h x (List.mem_cons_self x xs),
      ih fun a ha => h a (List.mem_cons_of_mem x ha)]

theorem filterMap_ifnone_length (a : ℕ) (l : List ℕ) :
    (l.filterMap fun k => if k = a then (none : Option ℚ) else some 0).length =
      l.length - l.count a := by
  induction l with
  | nil => rfl
  | cons x xs ih =>
    have hc : xs.count a ≤ xs.length := List.count_le_length a xs
    by_cases hx : x = a <;>
      simp [List.filterMap_cons, hx, List.count_cons, ih] <;> omega

theorem filterMap_ifnone_sum (a : ℕ) (l : List ℕ) :
    (l.filterMap fun k => if k = a then (none : Option ℚ) else some 0).sum = 0 := by
  apply List.sum_eq_zero
  intro x hx
  rcases List.mem_filterMap.1 hx with ⟨k, hk, hfk⟩
  by_cases h : k = a
  · simp [h] at hfk
  · simp [h] at hfk
    exact hfk.symm

theorem sum_ite_range (K l : ℕ) (hl : l < K) :
    ((List.range K).map fun k => if k = l then (1 : ℚ) else 0).sum = 1 := by
  induction K with
  | zero => omega
  | succ K ih =>
    rw [List.range_succ, List.map_append, List.sum_append]
    by_cases h : l = K
    · subst h
      have h0 : ((List.range l).map fun k => if k = l then (1 : ℚ) else 0).sum = 0 := by
        apply List.sum_eq_zero
        intro x hx
        rcases List.mem_map.1 hx with ⟨k, hk, rfl⟩
        rw [List.mem_range] at hk
        simp [Nat.ne_of_lt hk]
      simp [h0]
    · have hl2 : l < K := by omega
      rw [ih hl2]
      have : K ≠ l := fun hKl => h hKl.symm
      simp [this]

theorem vmul_hotV_none (l k : ℕ) : vmul (hotV l k) none = none := by
  unfold hotV
  split <;> rfl

theorem entry2_wscale_maskedMean (w : ℚ) (N K D : ℕ) (fd : ℕ → ℕ → ℕ → V)
    (labels : ℕ → ℕ) {n d : ℕ} (hn : n < N) (hd : d < D) :
    entry2 (wscale w (maskedMean N K D fd labels)) n d =
      vmul (nanmean1 ((List.range K).map fun k =>
        vmul (hotV (labels n) k) (vsquare (fd n k d)))) (some w) := by
  unfold wscale maskedMean entry2
  rw [List.map_map, getD_map_range _ hn]
  simp only [Function.comp]
  rw [List.map_map, getD_map_range _ hd]
  rfl

/-! ### Claims -/

/-- C1: on the concrete input N=2, K=2, D=1, weight=1,
`delta_arr = [[[1],[3]],[[2],[5]]]` and `q_arr = [[[0.9],[0.1]],[[0.2],[0.8]]]`,
the labels are `[0, 1]`, the one-hot mask selects cluster 0 for sample 0 and
cluster 1 for sample 1, the cluster-axis mean of the masked squared deltas
divides by the full cluster count (masked zeros are real zeros), and
`compute_clustering_loss` returns the encoder delta `[[0.5],[12.5]]` with
absent (`none`) decoder and centroid deltas, whatever the unused
observed/reconstructed/feature/p arrays are. -/
theorem C1_end_to_end (o r f p : Mat) :
    assign_label [[[some (9/10)], [some (1/10)]], [[some (2/10)], [some (8/10)]]] = [0, 1] ∧
    t_hot_mask [0, 1] 2 = [[some 1, some 0], [some 0, some 1]] ∧
    nanmeanAxis1 [[[some 1], [some 0]], [[some 0], [some 25]]] =
      [[some (1/2)], [some (25/2)]] ∧
    compute_clustering_loss 1 o r f
      [[[some 1], [some 3]], [[some 2], [some 5]]]
      [[[some (9/10)], [some (1/10)]], [[some (2/10)], [some (8/10)]]] p =
      .ok ([[some (1/2)], [some (25/2)]], none, none) := by
  refine ⟨by with_unfolding_all decide, by with_unfolding_all decide,
    by with_unfolding_all decide, ?_⟩
  with_unfolding_all rfl

/-- C3 counterexample: a call whose observed, reconstructed, feature and p
arrays have shapes wholly inconsistent with N=2, K=2, D=1 (observed is 1 x 3,
reconstructed and p are empty, feature is 1 x 1) silently returns a computed
result instead of failing fast with an incompatible-shape error; likewise a
call whose q_arr cluster-axis size (1) differs from delta_arr's (2) silently
returns a result. -/
theorem C3_counterexample :
    compute_clustering_loss 1 [[some 0, some 0, some 0]] [] [[some 7]]
      [[[some 1], [some 3]], [[some 2], [some 5]]]
      [[[some (9/10)], [some (1/10)]], [[some (2/10)], [some (8/10)]]] [] =
      .ok ([[some (1/2)], [some (25/2)]], none, none) ∧
    compute_clustering_loss 1 [] [] []
      [[[some 1], [some 3]], [[some 2], [some 5]]]
      [[[some 1]], [[some 1]]] [] =
      .ok ([[some (1/2)], [some 2]], none, none) := by
  exact ⟨by with_unfolding_all rfl, by with_unfolding_all rfl⟩

/-- C3 amended: `compute_clustering_loss` has no dedicated fail-fast shape
validation.  The observed, reconstructed, feature and p arrays are never
read, so the result is literally identical for any choice of them and
inconsistencies there are silently accepted; a q_arr cluster axis smaller
than delta_arr's is silently computed over and returns a result.  Only the
downstream numpy operations raise: a sample-count mismatch between q_arr
and delta_arr (neither count being 1) raises the broadcast error, and a
q_arr cluster axis larger than delta_arr's raises an out-of-bounds index
error when a label reaches it — neither is a fail-fast incompatible-shape
check of the inputs. -/
theorem C3_amended_no_shape_validation (w : ℚ) (o o2 r r2 f f2 p p2 : Mat)
    (delta_arr q_arr : Tensor3) :
    (compute_clustering_loss w o r f delta_arr q_arr p =
      compute_clustering_loss w o2 r2 f2 delta_arr q_arr p2) ∧
    (∃ z, compute_clustering_loss w [] [] []
        [[[some 1], [some 3]], [[some 2], [some 5]]]
        [[[some 1]], [[some 1]]] [] = .ok (z, none, none)) ∧
    (compute_clustering_loss w [] [] []
        [[[some 1], [some 3]], [[some 2], [some 5]]]
        [[[some 1]], [[some 1]], [[some 1]]] [] =
      .error "operands could not be broadcast together") ∧
    (compute_clustering_loss w [] [] []
        [[[some 1], [some 3]], [[some 2], [some 5]]]
        [[[some 0], [some 0], [some 9]], [[some 1], [some 0], [some 0]]] [] =
      .error "index 2 is out of bounds") := by
  refine ⟨rfl, ⟨wscale w [[some (1/2)], [some 2]], ?_⟩,
    by with_unfolding_all rfl, by with_unfolding_all rfl⟩
  have h2 : ([[[some 1], [some 3]], [[some 2], [some 5]]] : Tensor3) =
      mkT3 2 2 1 fun n k _ =>
        some (if n = 0 then (if k = 0 then 1 else 3) else (if k = 0 then 2 else 5)) := by
    with_unfolding_all decide
  have h3 : maskedMean 2 2 1 (fun n k _ =>
      some (if n = 0 then (if k = 0 then 1 else 3) else (if k = 0 then 2 else 5)))
      (fun _ => 0) = [[some (1/2)], [some 2]] := by
    with_unfolding_all decide
  rw [h2, compute_ok w [] [] [] [] 2 2 1 (by omega) (by omega) (by omega) _
    [[[some 1]], [[some 1]]] (fun _ => 0) (by with_unfolding_all decide)
    (by decide), h3]

/-- C7: linearity in the constructed weight — for a positive scalar `c`, a
fixed input tuple with all-finite `delta_arr` on which the call with weight
`w` returns encoder delta `z`, the call with weight `c * w` returns exactly
`c` times `z` (and the same absent markers). -/
theorem C7_weight_linearity (c w : ℚ) (hc : 0 < c) (o r f p : Mat)
    (delta_arr q_arr : Tensor3) (z : Mat)
    (hfin : ∀ mat ∈ delta_arr, ∀ row ∈ mat, ∀ v ∈ row, v ≠ none)
    (hok : compute_clustering_loss w o r f delta_arr q_arr p = .ok (z, none, none)) :
    compute_clustering_loss (c * w) o r f delta_arr q_arr p =
      .ok (smulMat c z, none, none) := by
  simp only [compute_clustering_loss] at hok ⊢
  by_cases hcond :
      ((assign_label q_arr).all fun l => decide (l < (delta_arr.headD []).length)) = true
  · rw [if_pos hcond] at hok ⊢
    rcases hbm : broadcastMul
        (expand_dims2 (t_hot_mask (assign_label q_arr) (delta_arr.headD []).length))
        (delta_arr.map fun mat => mat.map fun row => row.map vsquare) with e | dk
    · rw [hbm] at hok
      simp at hok
    · rw [hbm] at hok ⊢
      simp only [Except.ok.injEq, Prod.mk.injEq, and_true] at hok
      rw [Except.ok.injEq, Prod.mk.injEq, Prod.mk.injEq]
      refine ⟨?_, rfl, rfl⟩
      rw [← hok]
      exact wscale_mul c w (nanmeanAxis1 dk)
  · rw [if_neg hcond] at hok
    simp at hok

/-- C7 witness: the linearity theorem applied at c = 2, w = 1 on the C1
input. -/
theorem C7_weight_linearity_witness :
    (0 : ℚ) < 2 ∧
    compute_clustering_loss (2 * 1) [] [] []
      [[[some 1], [some 3]], [[some 2], [some 5]]]
      [[[some (9/10)], [some (1/10)]], [[some (2/10)], [some (8/10)]]] [] =
      .ok (smulMat 2 [[some (1/2)], [some (25/2)]], none, none) :=
  ⟨by norm_num,
    C7_weight_linearity 2 1 (by norm_num) [] [] [] []
      [[[some 1], [some 3]], [[some 2], [some 5]]]
      [[[some (9/10)], [some (1/10)]], [[some (2/10)], [some (8/10)]]]
      [[some (1/2)], [some (25/2)]] (by decide) (by with_unfolding_all rfl)⟩

/-- C8: the constructor's weight argument defaults to 0.125, and a call made
with the default weight returns 0.125 times the NaN-tolerant cluster-axis
mean of the masked squared distances (for any rectangular input whose label
assignment stays within the cluster count). -/
theorem C8_default_weight (o r f p : Mat) (N K D : ℕ)
    (hN : 0 < N) (hK : 0 < K) (hD : 0 < D)
    (fd : ℕ → ℕ → ℕ → V) (q_arr : Tensor3) (labels : ℕ → ℕ)
    (hl : assign_label q_arr = (List.range N).map labels)
    (hlk : ∀ n, n < N → labels n < K) :
    default_weight = 0.125 ∧
    compute_clustering_loss default_weight o r f (mkT3 N K D fd) q_arr p =
      .ok (smulMat 0.125 (maskedMean N K D fd labels), none, none) := by
  refine ⟨rfl, ?_⟩
  rw [compute_ok default_weight o r f p N K D hN hK hD fd q_arr labels hl hlk]
  rw [wscale_eq_smulMat]
  rfl

/-- C8 witness: the default-weight theorem applied at N = K = D = 1. -/
theorem C8_default_weight_witness :
    (0 < 1 ∧ assign_label [[[(some 1 : V)]]] = (List.range 1).map (fun _ => 0)) ∧
    (default_weight = 0.125 ∧
      compute_clustering_loss default_weight [] [] []
        (mkT3 1 1 1 fun _ _ _ => some 1) [[[(some 1 : V)]]] [] =
        .ok (smulMat 0.125 (maskedMean 1 1 1 (fun _ _ _ => some 1) fun _ => 0),
          none, none)) :=
  ⟨⟨by decide, by with_unfolding_all decide⟩,
    C8_default_weight [] [] [] [] 1 1 1 (by decide) (by decide) (by decide)
      (fun _ _ _ => some 1) [[[(some 1 : V)]]] (fun _ => 0)
      (by with_unfolding_all decide) (by decide)⟩

/-- C2 counterexample: N=1, K=2 (so K > 1), q = [[[0.9],[0.1]]] assigns
cluster 0, delta = [[[NaN],[3]]] puts the NaN exactly at the assigned
cluster with the other entry non-NaN — yet the encoder-delta entry is the
finite number 0, not NaN: `nanmean` drops the `1 * NaN` term and averages
the masked zero of the non-assigned cluster. -/
theorem C2_counterexample :
    1 < 2 ∧
    assign_label [[[some (9/10)], [some (1/10)]]] = [0] ∧
    compute_clustering_loss 1 [] [] [] [[[none], [some 3]]]
      [[[some (9/10)], [some (1/10)]]] [] = .ok ([[some 0]], none, none) ∧
    (some (0 : ℚ) : V) ≠ none := by
  refine ⟨by decide, by with_unfolding_all decide, by with_unfolding_all rfl, by decide⟩

/-- C2 amended: for every sample n with K > 1, when exactly one cluster-axis
entry of `delta_arr` for sample n is NaN: if it belongs to a non-assigned
cluster the encoder-delta entry for sample n is a finite number, and if it
is the assigned cluster's own entry the encoder-delta entry is the finite
number 0 (not NaN) — the NaN-tolerant mean excludes the `1 * NaN` term and
averages the remaining masked zeros. -/
theorem C2_amended_single_nan (w : ℚ) (o r f p : Mat) (N K : ℕ) (n j : ℕ)
    (hn : n < N) (hK : 1 < K) (hj : j < K)
    (q_arr : Tensor3) (labels : ℕ → ℕ)
    (hl : assign_label q_arr = (List.range N).map labels)
    (hlk : ∀ m, m < N → labels m < K)
    (fd : ℕ → ℕ → ℕ → V)
    (hnan : fd n j 0 = none)
    (hfin : ∀ k, k < K → k ≠ j → fd n k 0 ≠ none) :
    ∃ z, compute_clustering_loss w o r f (mkT3 N K 1 fd) q_arr p =
        .ok (z, none, none) ∧
      (labels n ≠ j → ∃ x : ℚ, entry2 z n 0 = some x) ∧
      (labels n = j → entry2 z n 0 = some 0) := by
  have hK0 : 0 < K := by omega
  refine ⟨wscale w (maskedMean N K 1 fd labels),
    compute_ok w o r f p N K 1 (by omega) hK0 (by omega) fd q_arr labels hl hlk, ?_, ?_⟩
  · intro hne
    rw [entry2_wscale_maskedMean w N K 1 fd labels hn (by omega)]
    have ha : labels n < K := hlk n hn
    rcases hfd : fd n (labels n) 0 with _ | y
    · exact absurd hfd (hfin (labels n) ha hne)
    have hmem : some (1 * (y * y)) ∈
        (List.range K).map fun k => vmul (hotV (labels n) k) (vsquare (fd n k 0)) := by
      have : vmul (hotV (labels n) (labels n)) (vsquare (fd n (labels n) 0)) =
          some (1 * (y * y)) := by
        simp [hotV, hfd, vsquare, vmul]
      rw [← this]
      exact List.mem_map_of_mem _ (List.mem_range.2 ha)
    rcases nanmean1_isSome_of_mem hmem with ⟨v, hv⟩
    exact ⟨v * w, by rw [hv]; rfl⟩
  · intro heq
    rw [entry2_wscale_maskedMean w N K 1 fd labels hn (by omega), heq]
    have hrow : ((List.range K).map fun k =>
        vmul (hotV j k) (vsquare (fd n k 0))).filterMap id =
        (List.range K).filterMap fun k => if k = j then none else some 0 := by
      rw [List.filterMap_map]
      apply filterMap_congr_mem
      intro k hk
      rw [List.mem_range] at hk
      by_cases hkj : k = j
      · subst hkj
        simp [Function.comp, hotV, hnan, vsquare, vmul]
      · rcases hfd : fd n k 0 with _ | y
        · exact absurd hfd (hfin k hk hkj)
        · simp [Function.comp, hotV, hkj, hfd, vsquare, vmul]
    have hlen : ((List.range K).filterMap fun k =>
        if k = j then (none : Option ℚ) else some 0).length = K - 1 := by
      rw [filterMap_ifnone_length, count_range_eq, if_pos hj]
      simp
    have hsum := filterMap_ifnone_sum j (List.range K)
    have hlen2 : (((List.range K).map fun k =>
        vmul (hotV j k) (vsquare (fd n k 0))).filterMap id).length = K - 1 := by
      rw [hrow]; exact hlen
    have hsum2 : (((List.range K).map fun k =>
        vmul (hotV j k) (vsquare (fd n k 0))).filterMap id).sum = 0 := by
      rw [hrow]; exact hsum
    rw [nanmean1_eq_of _ (by rw [hlen2]; omega), hsum2, zero_div]
    simp [vmul]

/-- C2 amended witness: the amended theorem applied at N=1, K=2, with the
NaN at the assigned cluster 0, yielding the entry `some 0`. -/
theorem C2_amended_single_nan_witness :
    ((0 : ℕ) < 1 ∧ (1 : ℕ) < 2 ∧ (0 : ℕ) < 2 ∧
      assign_label [[[some (9/10)], [some (1/10)]]] = (List.range 1).map (fun _ => 0) ∧
      (fun _ _ _ => if (0 : ℕ) = 0 then none else some (3 : ℚ) : ℕ → ℕ → ℕ → V) 0 0 0 = none) ∧
    (∃ z, compute_clustering_loss 1 [] [] []
        (mkT3 1 2 1 fun _ k _ => if k = 0 then none else some 3)
        [[[some (9/10)], [some (1/10)]]] [] = .ok (z, none, none) ∧
      ((fun _ => 0 : ℕ → ℕ) 0 ≠ 0 → ∃ x : ℚ, entry2 z 0 0 = some x) ∧
      ((fun _ => 0 : ℕ → ℕ) 0 = 0 → entry2 z 0 0 = some 0)) :=
  ⟨⟨by decide, by decide, by decide, by with_unfolding_all decide, by decide⟩,
    C2_amended_single_nan 1 [] [] [] [] 1 2 0 0 (by decide) (by decide) (by decide)
      [[[some (9/10)], [some (1/10)]]] (fun _ => 0)
      (by with_unfolding_all decide) (by decide)
      (fun _ k _ => if k = 0 then none else some 3) (by decide) (by decide)⟩

/-- C6: for every sample n and feature index d whose K cluster-axis entries
of the masked squared-distance tensor are all NaN (here: all of
`delta_arr[n, :, d]` is NaN, so every masked entry `mask * NaN^2` is NaN
whatever the mask), the encoder-delta entry [n, d] is NaN, propagated to the
caller rather than replaced by zero. -/
theorem C6_all_nan_slice (w : ℚ) (o r f p : Mat) (N K D : ℕ) (n d : ℕ)
    (hn : n < N) (hK : 0 < K) (hD : 0 < D) (hd : d < D)
    (q_arr : Tensor3) (labels : ℕ → ℕ)
    (hl : assign_label q_arr = (List.range N).map labels)
    (hlk : ∀ m, m < N → labels m < K)
    (fd : ℕ → ℕ → ℕ → V)
    (hall : ∀ k, k < K → fd n k d = none) :
    ∃ z, compute_clustering_loss w o r f (mkT3 N K D fd) q_arr p =
        .ok (z, none, none) ∧ entry2 z n d = none := by
  refine ⟨wscale w (maskedMean N K D fd labels),
    compute_ok w o r f p N K D (by omega) hK hD fd q_arr labels hl hlk, ?_⟩
  rw [entry2_wscale_maskedMean w N K D fd labels hn hd]
  have hmean : nanmean1 ((List.range K).map fun k =>
      vmul (hotV (labels n) k) (vsquare (fd n k d))) = none := by
    apply nanmean1_of_all_none
    intro v hv
    rcases List.mem_map.1 hv with ⟨k, hk, rfl⟩
    rw [List.mem_range] at hk
    rw [hall k hk]
    exact vmul_hotV_none (labels n) k
  rw [hmean]
  rfl

/-- C6 witness: the all-NaN-slice theorem applied at N = K = D = 1. -/
theorem C6_all_nan_slice_witness :
    ((0 : ℕ) < 1 ∧
      assign_label [[[(some 1 : V)]]] = (List.range 1).map (fun _ => 0) ∧
      ∀ k, k < 1 → (fun _ _ _ => (none : V) : ℕ → ℕ → ℕ → V) 0 k 0 = none) ∧
    (∃ z, compute_clustering_loss 1 [] [] [] (mkT3 1 1 1 fun _ _ _ => none)
        [[[(some 1 : V)]]] [] = .ok (z, none, none) ∧ entry2 z 0 0 = none) :=
  ⟨⟨by decide, by with_unfolding_all decide, by decide⟩,
    C6_all_nan_slice 1 [] [] [] [] 1 1 1 0 0 (by decide) (by decide) (by decide)
      (by decide) [[[(some 1 : V)]]] (fun _ => 0) (by with_unfolding_all decide)
      (by decide) (fun _ _ _ => none) (by decide)⟩

theorem qReduce_some (M : ℕ) (hM : 0 < M) (fq : ℕ → ℕ → ℕ → ℚ) (n k : ℕ) :
    (if 1 < M then nanmean1 ((List.range M).map fun m => some (fq n k m))
      else ((List.range M).map fun m => some (fq n k m)).headD none) =
      some (qCollapse M fq n k) := by
  unfold qCollapse
  by_cases hM1 : 1 < M
  · rw [if_pos hM1, if_pos hM1]
    have hmap : ((List.range M).map fun m => some (fq n k m)) =
        ((List.range M).map (fq n k)).map some := by
      rw [List.map_map]; rfl
    rw [hmap, nanmean1_map_some _ (by simp [List.range_eq_nil]; omega)]
    simp
  · rw [if_neg hM1, if_neg hM1]
    rw [headD_map_range _ hM]

/-- C4: on an all-finite N x K x M target distribution (M >= 1), label
assignment first collapses the trailing axis (plain mean when M > 1, the
reshape's single entry when M = 1) and then takes, per sample, the index of
the maximum along the cluster axis, ties broken by the first-occurring
maximum; the result is deterministic — equal inputs give equal label
vectors. -/
theorem C4_label_assignment (N K M : ℕ) (hN : 0 < N) (hK : 0 < K) (hM : 0 < M)
    (fq : ℕ → ℕ → ℕ → ℚ) :
    ∃ labels : List ℕ,
      assign_label (mkT3 N K M fun n k m => some (fq n k m)) = labels ∧
      labels = ((List.range N).map fun n =>
        np_argmax ((List.range K).map fun k => some (qCollapse M fq n k))) ∧
      labels.length = N ∧
      (∀ n, n < N →
        labels.getD n 0 < K ∧
        (∀ k, k < K → qCollapse M fq n k ≤ qCollapse M fq n (labels.getD n 0)) ∧
        (∀ k, k < labels.getD n 0 →
          qCollapse M fq n k < qCollapse M fq n (labels.getD n 0))) ∧
      (∀ q2, q2 = mkT3 N K M (fun n k m => some (fq n k m)) →
        assign_label q2 = labels) := by
  have hmain : assign_label (mkT3 N K M fun n k m => some (fq n k m)) =
      (List.range N).map fun n =>
        np_argmax ((List.range K).map fun k => some (qCollapse M fq n k)) := by
    rw [assign_label_mkT3 N K M hN hK]
    apply List.map_congr_left
    intro n hn
    congr 1
    apply List.map_congr_left
    intro k hk
    exact qReduce_some M hM fq n k
  refine ⟨_, hmain, rfl, by simp, ?_, ?_⟩
  · intro n hn
    rw [getD_map_range _ hn]
    exact np_argmax_some_spec (qCollapse M fq n) K hK
  · intro q2 hq2
    rw [hq2, hmain]

/-- C4 witness: the label-assignment theorem applied at N=1, K=2, M=1 with
collapsed row values 0 and 1. -/
theorem C4_label_assignment_witness :
    ((0 : ℕ) < 1 ∧ (0 : ℕ) < 2 ∧ (0 : ℕ) < 1) ∧
    (∃ labels : List ℕ,
      assign_label (mkT3 1 2 1 fun n k m => some ((k : ℚ))) = labels ∧
      labels = ((List.range 1).map fun n =>
        np_argmax ((List.range 2).map fun k =>
          some (qCollapse 1 (fun n k m => (k : ℚ)) n k))) ∧
      labels.length = 1 ∧
      (∀ n, n < 1 →
        labels.getD n 0 < 2 ∧
        (∀ k, k < 2 → qCollapse 1 (fun n k m => (k : ℚ)) n k ≤
          qCollapse 1 (fun n k m => (k : ℚ)) n (labels.getD n 0)) ∧
        (∀ k, k < labels.getD n 0 →
          qCollapse 1 (fun n k m => (k : ℚ)) n k <
            qCollapse 1 (fun n k m => (k : ℚ)) n (labels.getD n 0))) ∧
      (∀ q2, q2 = mkT3 1 2 1 (fun n k m => some ((k : ℚ))) →
        assign_label q2 = labels)) :=
  ⟨⟨by decide, by decide, by decide⟩,
    C4_label_assignment 1 2 1 (by decide) (by decide) (by decide)
      (fun n k m => (k : ℚ))⟩

/-- C5: for every label vector (each label below the cluster count K read
from the delta array), the constructed mask tensor is N x K x 1, each of
its N rows contains exactly one cell equal to 1 with every other cell 0,
and the sum of all mask entries is N. -/
theorem C5_mask_invariant (label_arr : List ℕ) (K : ℕ)
    (hb : ∀ l ∈ label_arr, l < K) :
    ∃ mask : Tensor3, mask = expand_dims2 (t_hot_mask label_arr K) ∧
      mask.length = label_arr.length ∧
      (∀ row ∈ mask, row.length = K ∧ ∀ cell ∈ row, cell.length = 1) ∧
      (∀ row ∈ mask, (row.countP fun cell => cell = [some 1]) = 1 ∧
        ∀ cell ∈ row, cell = [some 1] ∨ cell = [some 0]) ∧
      maskTotal mask = (label_arr.length : ℚ) := by
  have hmask : expand_dims2 (t_hot_mask label_arr K) =
      label_arr.map fun l => (List.range K).map fun k => [hotV l k] := by
    unfold expand_dims2 t_hot_mask
    rw [List.map_map]
    apply List.map_congr_left
    intro l hl
    simp [Function.comp, List.map_map]
  refine ⟨_, rfl, by simp [expand_dims2, t_hot_mask], ?_, ?_, ?_⟩
  · intro row hrow
    rw [hmask] at hrow
    rcases List.mem_map.1 hrow with ⟨l, hl, rfl⟩
    refine ⟨by simp, ?_⟩
    intro cell hcell
    rcases List.mem_map.1 hcell with ⟨k, hk, rfl⟩
    rfl
  · intro row hrow
    rw [hmask] at hrow
    rcases List.mem_map.1 hrow with ⟨l, hl, rfl⟩
    have hlK : l < K := hb l hl
    constructor
    · rw [List.countP_map]
      have hpt : ∀ k ∈ List.range K,
          ((fun cell => decide (cell = [some 1])) ∘ fun k => [hotV l k]) k = true ↔
            ((fun k => k == l) k) = true := by
        intro k hk
        by_cases hkl : k = l
        · simp [Function.comp, hotV, hkl]
        · simp [Function.comp, hotV, hkl]
      rw [List.countP_congr hpt]
      rw [← List.count_eq_countP, count_range_eq, if_pos hlK]
    · intro cell hcell
      rcases List.mem_map.1 hcell with ⟨k, hk, rfl⟩
      by_cases hkl : k = l
      · left; simp [hotV, hkl]
      · right; simp [hotV, hkl]
  · unfold maskTotal
    rw [hmask, List.map_map]
    have hrows : label_arr.map ((fun row : List (List V) =>
        (row.map fun cell => (cell.filterMap id).sum).sum) ∘
          fun l => (List.range K).map fun k => [hotV l k]) =
        label_arr.map fun _ => (1 : ℚ) := by
      apply List.map_congr_left
      intro l hl
      have hlK : l < K := hb l hl
      simp only [Function.comp, List.map_map]
      have hcell : ((fun cell : List V => (cell.filterMap id).sum) ∘
          fun k => [hotV l k]) = fun k => if k = l then (1 : ℚ) else 0 := by
        funext k
        by_cases hkl : k = l <;> simp [Function.comp, hotV, hkl]
      rw [hcell]
      exact sum_ite_range K l hlK
    rw [hrows]
    have := sum_all_ones (label_arr.map fun _ => (1 : ℚ)) (by
      intro x hx
      rcases List.mem_map.1 hx with ⟨_, _, rfl⟩
      rfl)
    rw [this]
    simp

/-- C5 witness: the mask-invariant theorem applied to the label vector
[0, 1] with K = 2. -/
theorem C5_mask_invariant_witness :
    (∀ l ∈ [0, 1], l < 2) ∧
    (∃ mask : Tensor3, mask = expand_dims2 (t_hot_mask [0, 1] 2) ∧
      mask.length = ([0, 1] : List ℕ).length ∧
      (∀ row ∈ mask, row.length = 2 ∧ ∀ cell ∈ row, cell.length = 1) ∧
      (∀ row ∈ mask, (row.countP fun cell => cell = [some 1]) = 1 ∧
        ∀ cell ∈ row, cell = [some 1] ∨ cell = [some 0]) ∧
      maskTotal mask = (([0, 1] : List ℕ).length : ℚ)) :=
  ⟨by decide, C5_mask_invariant [0, 1] 2 (by decide)⟩

theorem countP_not_add (p : ℕ → Bool) (l : List ℕ) :
    (l.countP fun a => !p a) = l.length - l.countP p := by
  induction l with
  | nil => rfl
  | cons x xs ih =>
    have hle : xs.countP p ≤ xs.length := List.countP_le_length p
    by_cases h : p x = true <;> simp [List.countP_cons, h, ih] <;> omega

/-- C9: for K > 1, a NaN `delta_arr` entry at a NON-assigned cluster changes
the encoder delta even though that cluster is masked out: `0 * NaN^2` is
NaN, the NaN-tolerant mean drops it from the denominator, and the entry
[n, d] becomes (assigned squared delta) / (K minus the number of NaN
entries along the cluster axis) times the weight, rather than divided
by K. -/
theorem C9_nonassigned_nan_changes_mean (w : ℚ) (o r f p : Mat) (N K D : ℕ)
    (n d : ℕ) (hn : n < N) (hK : 1 < K) (hD : 0 < D) (hd : d < D)
    (q_arr : Tensor3) (labels : ℕ → ℕ)
    (hl : assign_label q_arr = (List.range N).map labels)
    (hlk : ∀ m, m < N → labels m < K)
    (fd : ℕ → ℕ → ℕ → V) (x : ℚ)
    (hx : fd n (labels n) d = some x) :
    ∃ z, compute_clustering_loss w o r f (mkT3 N K D fd) q_arr p =
        .ok (z, none, none) ∧
      entry2 z n d = some (x * x /
        ((K - (List.range K).countP (fun k => fd n k d = none) : ℕ) : ℚ) * w) := by
  have hK0 : 0 < K := by omega
  have ha : labels n < K := hlk n hn
  refine ⟨wscale w (maskedMean N K D fd labels),
    compute_ok w o r f p N K D (by omega) hK0 hD fd q_arr labels hl hlk, ?_⟩
  rw [entry2_wscale_maskedMean w N K D fd labels hn hd]
  have hFa : vmul (hotV (labels n) (labels n)) (vsquare (fd n (labels n) d)) =
      some (x * x) := by
    simp [hotV, hx, vsquare, vmul]
  have hfm : (((List.range K).map fun k =>
      vmul (hotV (labels n) k) (vsquare (fd n k d))).filterMap id) =
      (List.range K).filterMap fun k =>
        vmul (hotV (labels n) k) (vsquare (fd n k d)) := by
    rw [List.filterMap_map]
    rfl
  have hsum : ((List.range K).filterMap fun k =>
      vmul (hotV (labels n) k) (vsquare (fd n k d))).sum = x * x := by
    rw [sum_filterMap_hot (labels n) (x * x) _ (List.range K) ?_]
    · rw [count_range_eq, if_pos ha]
      ring
    · intro k hk
      constructor
      · intro hkl
        subst hkl
        exact hFa
      · intro hkl
        rcases hfd : fd n k d with _ | y
        · left
          simp [hotV, hkl, hfd, vsquare, vmul]
        · right
          simp [hotV, hkl, hfd, vsquare, vmul]
  have hlenc : ((List.range K).filterMap fun k =>
      vmul (hotV (labels n) k) (vsquare (fd n k d))).length =
      K - (List.range K).countP fun k => decide (fd n k d = none) := by
    rw [length_filterMap_eq_countP]
    have hpt : ∀ k ∈ List.range K,
        ((vmul (hotV (labels n) k) (vsquare (fd n k d))).isSome = true) ↔
          ((!decide (fd n k d = none)) = true) := by
      intro k hk
      by_cases hkl : k = labels n
      · subst hkl
        rw [hFa]
        simp [hx]
      · rcases hfd : fd n k d with _ | y
        · simp [hotV, hkl, hfd, vsquare, vmul]
        · simp [hotV, hkl, hfd, vsquare, vmul]
    rw [List.countP_congr hpt, countP_not_add]
    simp
  have hpos : ((List.range K).filterMap fun k =>
      vmul (hotV (labels n) k) (vsquare (fd n k d))).length ≠ 0 := by
    rw [length_filterMap_eq_countP]
    have : 0 < (List.range K).countP fun k =>
        (vmul (hotV (labels n) k) (vsquare (fd n k d))).isSome := by
      rw [List.countP_pos_iff]
      exact ⟨labels n, List.mem_range.2 ha, by rw [hFa]; rfl⟩
    omega
  rw [nanmean1_eq_of _ (by rw [hfm]; exact hpos)]
  rw [hfm, hsum, hlenc]
  rfl

/-- C9 witness: the theorem applied at K=2, D=1 with the assigned cluster 0
holding delta 3 and the non-assigned cluster holding NaN; the entry is
9 / (2 - 1) * 1. -/
theorem C9_nonassigned_nan_changes_mean_witness :
    ((0 : ℕ) < 1 ∧ (1 : ℕ) < 2 ∧ (0 : ℕ) < 1 ∧
      assign_label [[[some (9/10)], [some (1/10)]]] = (List.range 1).map (fun _ => 0) ∧
      (fun _ k _ => if k = 0 then some (3 : ℚ) else none : ℕ → ℕ → ℕ → V)
        0 ((fun _ => 0 : ℕ → ℕ) 0) 0 = some 3) ∧
    (∃ z, compute_clustering_loss 1 [] [] []
        (mkT3 1 2 1 fun _ k _ => if k = 0 then some 3 else none)
        [[[some (9/10)], [some (1/10)]]] [] = .ok (z, none, none) ∧
      entry2 z 0 0 = some ((3 : ℚ) * 3 /
        ((2 - (List.range 2).countP
          (fun k => (if k = 0 then some (3 : ℚ) else none : V) = none) : ℕ) : ℚ) * 1)) :=
  ⟨⟨by decide, by decide, by decide, by with_unfolding_all decide,
      by with_unfolding_all decide⟩,
    C9_nonassigned_nan_changes_mean 1 [] [] [] [] 1 2 1 0 0 (by decide) (by decide)
      (by decide) (by decide) [[[some (9/10)], [some (1/10)]]] (fun _ => 0)
      (by with_unfolding_all decide) (by decide)
      (fun _ k _ => if k = 0 then some 3 else none) 3 (by with_unfolding_all decide)⟩

/-- C10: when the collapsed N x K reduction of a q row contains at least one
NaN, the assigned label for that sample is the index of the FIRST NaN entry
in the row (numpy's max-index scan treats NaN as maximal and stops), even
when a larger finite value exists at a later index. -/
theorem C10_first_nan_wins (N K M : ℕ) (n j : ℕ) (hn : n < N) (hK : 0 < K)
    (hM : 0 < M) (hj : j < K) (fq : ℕ → ℕ → ℕ → V)
    (hnan : (if 1 < M then nanmean1 ((List.range M).map (fq n j)) else fq n j 0) = none)
    (hfin : ∀ t, t < j →
      (if 1 < M then nanmean1 ((List.range M).map (fq n t)) else fq n t 0) ≠ none) :
    (assign_label (mkT3 N K M fq)).getD n 0 = j := by
  have hN : 0 < N := by omega
  rw [assign_label_mkT3 N K M hN hK fq, getD_map_range _ hn]
  have hG : ∀ k, (if 1 < M then nanmean1 ((List.range M).map (fq n k))
      else ((List.range M).map (fq n k)).headD none) =
      (if 1 < M then nanmean1 ((List.range M).map (fq n k)) else fq n k 0) := by
    intro k
    by_cases h1 : 1 < M
    · simp [h1]
    · rw [if_neg h1, if_neg h1, headD_map_range _ hM]
  refine np_argmax_first_none _ j (by simp [hj]) ?_ ?_
  · rw [getD_map_range _ hj (some 0), hG j]
    exact hnan
  · intro t ht
    have htK : t < K := by omega
    rw [getD_map_range _ htK (some 0), hG t]
    exact hfin t ht

/-- C10 witness: the theorem applied to the collapsed row
[0, NaN, 5] — the label is 1, the first NaN, not 2 where the larger finite
value 5 sits. -/
theorem C10_first_nan_wins_witness :
    ((0 : ℕ) < 1 ∧ (0 : ℕ) < 3 ∧ (0 : ℕ) < 1 ∧ (1 : ℕ) < 3 ∧
      (if 1 < 1 then
        nanmean1 ((List.range 1).map
          ((fun _ k _ => if k = 1 then none else some (k : ℚ) : ℕ → ℕ → ℕ → V) 0 1))
      else (fun _ k _ => if k = 1 then none else some (k : ℚ) : ℕ → ℕ → ℕ → V) 0 1 0)
        = none) ∧
    (assign_label (mkT3 1 3 1 fun _ k _ =>
      if k = 1 then none else some (k : ℚ))).getD 0 0 = 1 :=
  ⟨⟨by decide, by decide, by decide, by decide, by with_unfolding_all decide⟩,
    C10_first_nan_wins 1 3 1 0 1 (by decide) (by decide) (by decide) (by decide)
      (fun _ k _ => if k = 1 then none else some (k : ℚ))
      (by with_unfolding_all decide) (by with_unfolding_all decide)⟩

end KMeansLossModel
